import Mathlib

/-!
Verification development for the Time-Calculator repository
(`src/improved.py`): a personal time-tracking and billing calculator.

The Python source is shallowly embedded below:
* `parse_time_input` models the normalization pipeline plus
  `datetime.strptime(s, "%H:%M")`.  CPython's `_strptime` compiles the
  format `"%H:%M"` to the anchored regex `(2[0-3]|[0-1]\d|\d):([0-5]\d|\d)`
  followed by a full-length check, i.e. success exactly when the string is
  1-2 digits with value at most 23, then a colon, then 1-2 digits with
  value at most 59.  Digits and whitespace are modelled at their ASCII
  meaning (the inputs of interest are ASCII).
* `calculate_duration` models the billing computation.  All Python float
  arithmetic involved (`total_seconds()/60`, `//`, `%`, `+ 0.5`,
  `round(_, 1)`) is exact on the values that occur (whole minutes and
  halves), so durations are embedded as naturals and `decimal_hours` as a
  rational.
* `computeSession` models the caller-side day wrap of
  `get_multiple_session_details` (add 24 hours to the end time when it is
  before the start time).
* `removeSessions` models the remove branch of `manage_sessions`
  (indices sorted descending, bounds-checked deletion).
* `save_sessions_to_csv` / `load_sessions` model row-level CSV persistence
  (the csv module itself is the external collaborator that transports rows
  of strings; `str(float(cost))` is `"<digits>.0"` for the integer costs
  the program produces, exact below 2^53).
-/

namespace TimeCalc

/-! ### Characters and digit strings -/

/-- ASCII decimal digit test (models Python `str.isdigit` and the regex
class `\d` on the ASCII inputs of interest). -/
def isDigitC (c : Char) : Bool := decide (48 ≤ c.toNat ∧ c.toNat ≤ 57)

/-- ASCII whitespace test (models Python `str.strip`'s default set on
ASCII: space, tab, newline, vertical tab, form feed, carriage return). -/
def isSpaceC (c : Char) : Bool :=
  decide (c.toNat = 32 ∨ c.toNat = 9 ∨ c.toNat = 10 ∨ c.toNat = 11 ∨
          c.toNat = 12 ∨ c.toNat = 13)

/-- Numeric value of a digit character. -/
def dv (c : Char) : Nat := c.toNat - 48

/-- Value of a string of decimal digits (most significant first). -/
def digitsVal (l : List Char) : Nat := l.foldl (fun a c => 10 * a + dv c) 0

/-- The decimal digit character for `n ≤ 9`. -/
def dChar (n : Nat) : Char :=
  if n = 0 then '0' else if n = 1 then '1' else if n = 2 then '2'
  else if n = 3 then '3' else if n = 4 then '4' else if n = 5 then '5'
  else if n = 6 then '6' else if n = 7 then '7' else if n = 8 then '8'
  else '9'

/-- Decimal digits of `n`, most significant first, with explicit fuel so
that recursion is structural (any `fuel > n` computes the digits). -/
def natStrAux : Nat → Nat → List Char
  | 0, _ => []
  | f + 1, n =>
    if n < 10 then [dChar n] else natStrAux f (n / 10) ++ [dChar (n % 10)]

/-- Standard decimal rendering of a natural number (models Python
`str(int)`). -/
def natStr (n : Nat) : List Char := natStrAux (n + 1) n

/-! ### The Time Parser (`parse_time_input`, src/improved.py lines 14-28) -/

/-- A parsed time of day, the result of `datetime.strptime(s, "%H:%M")`
restricted to its time-of-day content (hour 0-23, minute 0-59). -/
structure TimeOfDay where
  hour : Nat
  minute : Nat
deriving DecidableEq, Repr

/-- Step `re.sub(r'[\.;]', ':', s)` applied per character. -/
def sub1 (c : Char) : Char := if c = '.' ∨ c = ';' then ':' else c

/-- Step `re.sub(r'[,]', '.', s)` applied per character. -/
def sub2 (c : Char) : Char := if c = ',' then '.' else c

/-- Python `str.strip()`: drop leading and trailing whitespace. -/
def pyStrip (s : List Char) : List Char :=
  ((s.dropWhile isSpaceC).reverse.dropWhile isSpaceC).reverse

/-- The `'2000' -> '20:00'` step: if the string is exactly 4 characters
and all digits, insert a colon after the first two. -/
def insertColon (s : List Char) : List Char :=
  if s.length = 4 ∧ (∀ c ∈ s, isDigitC c = true) then
    s.take 2 ++ ':' :: s.drop 2
  else s

/-- Split a character list at the first occurrence of `sep`. -/
def splitAtChar (sep : Char) : List Char → Option (List Char × List Char)
  | [] => none
  | c :: r =>
    if c = sep then some ([], r)
    else
      match splitAtChar sep r with
      | none => none
      | some (a, b) => some (c :: a, b)

/-- Value of a 1- or 2-digit component, as accepted by the `%H`/`%M`
regex alternatives `XY|\d` of CPython's `_strptime`. -/
def twoDigitVal : List Char → Option Nat
  | [a] => if isDigitC a = true then some (dv a) else none
  | [a, b] =>
    if isDigitC a = true ∧ isDigitC b = true then some (10 * dv a + dv b)
    else none
  | _ => none

/-- Model of `datetime.strptime(s, "%H:%M")`: anchored match of
`(2[0-3]|[0-1]\d|\d):([0-5]\d|\d)` over the whole string, i.e. 1-2 digits
worth at most 23, a colon, 1-2 digits worth at most 59. -/
def strptimeHM (s : List Char) : Option TimeOfDay :=
  match splitAtChar ':' s with
  | none => none
  | some (hd, md) =>
    match twoDigitVal hd, twoDigitVal md with
    | some h, some m => if h ≤ 23 ∧ m ≤ 59 then some ⟨h, m⟩ else none
    | _, _ => none

/-- The normalization pipeline of `parse_time_input`: alternate-separator
substitution, comma substitution, strip, 4-digit colon insertion. -/
def normalizeChars (s : List Char) : List Char :=
  insertColon (pyStrip ((s.map sub1).map sub2))

/-- Function `parse_time_input` (src/improved.py lines 14-28): normalize, then
parse as `%H:%M`; `none` models the `return None` on `ValueError`. -/
def parse_time_input (s : List Char) : Option TimeOfDay :=
  strptimeHM (normalizeChars s)

/-- Variant of `parse_time_input` with the comma-substitution step (line 17 of the
source) removed; used to settle the dead-logic question about that step. -/
def parse_time_input_noComma (s : List Char) : Option TimeOfDay :=
  strptimeHM (insertColon (pyStrip (s.map sub1)))

/-! ### The Duration & Billing Calculator
(`calculate_duration`, src/improved.py lines 30-70) -/

/-- Zero-padded 2-digit rendering of a number below 100 (the `%H`/`%M`
fields of `strftime("%H:%M")`). -/
def pad2 (n : Nat) : List Char := if n < 10 then '0' :: natStr n else natStr n

/-- Rendering `dt.strftime("%H:%M")` for a datetime sitting `t` minutes after
1900-01-01 00:00: hour of day modulo 24, zero padded. -/
def fmtHM (t : Nat) : String := ⟨pad2 (t / 60 % 24) ++ ':' :: pad2 (t % 60)⟩

/-- Rendering of the cost format string of the source (a dollar sign, the
integer cost, and two zero decimals) for the integer costs the program
produces. -/
def fmtCost (c : Nat) : String := ⟨'$' :: natStr c ++ ['.', '0', '0']⟩

/-- One session record, the dict returned by `calculate_duration`. -/
structure Session where
  start_time : String
  end_time : String
  original_hours : Nat
  original_minutes : Nat
  rounded_hours : Nat
  rounded_minutes : Nat
  decimal_hours : ℚ
  cost : Nat
  formatted_cost : String
deriving DecidableEq, Repr

/-- Function `calculate_duration(start_time, end_time)` (src/improved.py lines
30-70), with both datetimes measured in whole minutes from 1900-01-01
00:00.  Returns `none` when the duration is negative, otherwise the
session record;  `round(decimal_hours, 1)` is the identity on the exact
half-integers that occur and is omitted. -/
def calculate_duration (startMin endMin : Nat) : Option Session :=
  if endMin < startMin then none
  else
    let total := endMin - startMin
    let hours := total / 60
    let minutes := total % 60
    let rounded_hours :=
      if minutes ≤ 19 then hours else if minutes ≤ 49 then hours
      else hours + 1
    let rounded_minutes : Nat :=
      if minutes ≤ 19 then 0 else if minutes ≤ 49 then 30 else 0
    let decimal_hours : ℚ :=
      (rounded_hours : ℚ) + (if rounded_minutes = 30 then (1 : ℚ)/2 else 0)
    let cost := rounded_hours * 220 + rounded_minutes / 30 * 110
    some
      { start_time := fmtHM startMin
        end_time := fmtHM endMin
        original_hours := hours
        original_minutes := minutes
        rounded_hours := rounded_hours
        rounded_minutes := rounded_minutes
        decimal_hours := decimal_hours
        cost := cost
        formatted_cost := fmtCost cost }

/-- Total minutes of a time of day. -/
def toMinutes (t : TimeOfDay) : Nat := t.hour * 60 + t.minute

/-- The caller-side pipeline of `get_multiple_session_details` (and the
edit branch of `manage_sessions`): apply the day wrap
(`end_time += timedelta(days=1)` when `end_time < start_time`), then
compute the session record. -/
def computeSession (st en : TimeOfDay) : Option Session :=
  let s := toMinutes st
  let e := toMinutes en
  let e2 := if e < s then e + 1440 else e
  calculate_duration s e2

/-! ### Session removal (`manage_sessions` choice 3,
src/improved.py lines 164-180) -/

/-- The deletion loop: for each index in the given order,
`if 0 <= index < len(sessions): del sessions[index]`. -/
def delIndices {α : Type} (ss : List α) (idxs : List Int) : List α :=
  idxs.foldl
    (fun acc i =>
      if 0 ≤ i ∧ i < (acc.length : Int) then acc.eraseIdx i.toNat else acc)
    ss

/-- Insert into a descending list (one step of sorting). -/
def insDesc (i : Int) : List Int → List Int
  | [] => [i]
  | j :: r => if j ≤ i then i :: j :: r else j :: insDesc i r

/-- Python `sorted(l, reverse=True)`. -/
def sortDesc (l : List Int) : List Int := l.foldr insDesc []

/-- The remove branch of `manage_sessions`: convert the 1-based indices
to 0-based, sort descending, and delete with bounds checks. -/
def removeSessions {α : Type} (ss : List α) (oneBased : List Int) : List α :=
  delIndices ss (sortDesc (oneBased.map (fun x => x - 1)))

/-- Pair each element with its position, starting at `n`. -/
def withIdx {α : Type} : Nat → List α → List (Nat × α)
  | _, [] => []
  | n, x :: xs => (n, x) :: withIdx (n + 1) xs

/-- The records surviving a removal, described by the spec: exactly the
elements whose (0-based) position is not listed. -/
def survivors {α : Type} (ss : List α) (zeroBased : List Int) : List α :=
  ((withIdx 0 ss).filter
    (fun p => !decide ((p.1 : Int) ∈ zeroBased))).map Prod.snd

/-! ### CSV persistence (`save_sessions_to_csv` lines 187-208 and the
load in `main` lines 217-222).  The csv module is the external
collaborator transporting rows of strings; we model the row contents. -/

/-- Python `str(float(n))` for a natural number (exact for `n < 2^53`). -/
def pyFloatStr (n : Nat) : String := ⟨natStr n ++ ['.', '0']⟩

/-- Python `str(q)` for the non-negative half-integer floats stored in
`decimal_hours` (`h.0` or `h.5`). -/
def pyHalfStr (q : ℚ) : String :=
  if q.den = 1 then ⟨natStr q.num.toNat ++ ['.', '0']⟩
  else ⟨natStr (q.num.toNat / 2) ++ ['.', '5']⟩

/-- The row `csv.DictWriter.writerow` emits for one session, in the
fieldnames order of `save_sessions_to_csv` (note `formatted_cost` comes
before `cost`, and `cost` is converted to `float` first). -/
def session_to_row (s : Session) : List String :=
  [s.start_time, s.end_time, ⟨natStr s.original_hours⟩,
   ⟨natStr s.original_minutes⟩, ⟨natStr s.rounded_hours⟩,
   ⟨natStr s.rounded_minutes⟩, pyHalfStr s.decimal_hours,
   s.formatted_cost, pyFloatStr s.cost]

/-- Function `save_sessions_to_csv`: the data rows written to the file. -/
def save_sessions_to_csv (ss : List Session) : List (List String) :=
  ss.map session_to_row

/-- A session as reloaded by `csv.DictReader`: every field a string. -/
structure LoadedSession where
  start_time : String
  end_time : String
  original_hours : String
  original_minutes : String
  rounded_hours : String
  rounded_minutes : String
  decimal_hours : String
  formatted_cost : String
  cost : String
deriving DecidableEq, Repr

/-- Rebuild one loaded record from a 9-column row. -/
def row_to_loaded : List String → Option LoadedSession
  | [a, b, c, d, e, f, g, h, i] => some ⟨a, b, c, d, e, f, g, h, i⟩
  | _ => none

/-- The load in `main`: `sessions = list(csv.DictReader(file))`. -/
def load_sessions (rows : List (List String)) : List LoadedSession :=
  rows.filterMap row_to_loaded

/-- A concrete session record (a 1h20m session starting at midnight, as
the program computes it), used to instantiate general statements. -/
def sessionExample : Session :=
  { start_time := "00:00", end_time := "01:20", original_hours := 1,
    original_minutes := 20, rounded_hours := 1, rounded_minutes := 30,
    decimal_hours := 3/2, cost := 330, formatted_cost := "$330.00" }

/-- Numeric value denoted by a decimal string such as `"440.0"`;
used to state value-equality of re-typed fields. -/
def decValue (s : String) : Option ℚ :=
  match splitAtChar '.' s.data with
  | some (a, b) =>
    if a ≠ [] ∧ (∀ c ∈ a, isDigitC c = true) ∧ (∀ c ∈ b, isDigitC c = true)
    then some ((digitsVal a : ℚ) + (digitsVal b : ℚ) / 10 ^ b.length)
    else none
  | none =>
    if s.data ≠ [] ∧ (∀ c ∈ s.data, isDigitC c = true)
    then some (digitsVal s.data) else none

/-- Spec-side description of the time grammar (§4.1 step 5 of the spec):
the string is 1-2 digits with value in [0,23], a colon, and 1-2 digits
with value in [0,59]. -/
def isValidHM (s : List Char) : Prop :=
  ∃ hd md : List Char,
    s = hd ++ ':' :: md ∧
    1 ≤ hd.length ∧ hd.length ≤ 2 ∧ (∀ c ∈ hd, isDigitC c = true) ∧
    digitsVal hd ≤ 23 ∧
    1 ≤ md.length ∧ md.length ≤ 2 ∧ (∀ c ∈ md, isDigitC c = true) ∧
    digitsVal md ≤ 59

/-! ## Helper lemmas about the calculator -/

theorem calculate_duration_low {a b : Nat} (hab : a ≤ b)
    (hm : (b - a) % 60 ≤ 19) :
    calculate_duration a b = some
      { start_time := fmtHM a
        end_time := fmtHM b
        original_hours := (b - a) / 60
        original_minutes := (b - a) % 60
        rounded_hours := (b - a) / 60
        rounded_minutes := 0
        decimal_hours := ((b - a) / 60 : Nat)
        cost := (b - a) / 60 * 220
        formatted_cost := fmtCost ((b - a) / 60 * 220) } := by
  simp [calculate_duration, Nat.not_lt.mpr hab, hm]

theorem calculate_duration_mid {a b : Nat} (hab : a ≤ b)
    (hm1 : ¬ (b - a) % 60 ≤ 19) (hm2 : (b - a) % 60 ≤ 49) :
    calculate_duration a b = some
      { start_time := fmtHM a
        end_time := fmtHM b
        original_hours := (b - a) / 60
        original_minutes := (b - a) % 60
        rounded_hours := (b - a) / 60
        rounded_minutes := 30
        decimal_hours := ((b - a) / 60 : Nat) + 1/2
        cost := (b - a) / 60 * 220 + 110
        formatted_cost := fmtCost ((b - a) / 60 * 220 + 110) } := by
  simp [calculate_duration, Nat.not_lt.mpr hab, hm1, hm2]

theorem calculate_duration_high {a b : Nat} (hab : a ≤ b)
    (hm1 : ¬ (b - a) % 60 ≤ 19) (hm2 : ¬ (b - a) % 60 ≤ 49) :
    calculate_duration a b = some
      { start_time := fmtHM a
        end_time := fmtHM b
        original_hours := (b - a) / 60
        original_minutes := (b - a) % 60
        rounded_hours := (b - a) / 60 + 1
        rounded_minutes := 0
        decimal_hours := ((b - a) / 60 + 1 : Nat)
        cost := ((b - a) / 60 + 1) * 220
        formatted_cost := fmtCost (((b - a) / 60 + 1) * 220) } := by
  simp [calculate_duration, Nat.not_lt.mpr hab, hm1, hm2]

/-! ## Helper lemmas about characters and the parser pipeline -/

theorem digit_ne_sep {c : Char} (hc : isDigitC c = true) :
    c ≠ '.' ∧ c ≠ ';' ∧ c ≠ ',' ∧ c ≠ ':' := by
  refine ⟨?_, ?_, ?_, ?_⟩ <;> (rintro rfl; exact absurd hc (by decide))

theorem isSpaceC_of_digit {c : Char} (hc : isDigitC c = true) :
    isSpaceC c = false := by
  simp only [isDigitC, decide_eq_true_eq] at hc
  simp only [isSpaceC, decide_eq_false_iff_not]
  omega

theorem sub1_digit {c : Char} (hc : isDigitC c = true) : sub1 c = c := by
  have h := digit_ne_sep hc
  simp [sub1, h.1, h.2.1]

theorem sub2_digit {c : Char} (hc : isDigitC c = true) : sub2 c = c := by
  simp [sub2, (digit_ne_sep hc).2.2.1]

theorem sub1_eq_comma {c : Char} (h : sub1 c = ',') : c = ',' := by
  unfold sub1 at h
  split at h
  · cases h
  · exact h

theorem map_id_of {α : Type} {f : α → α} {l : List α}
    (h : ∀ c ∈ l, f c = c) : l.map f = l := by
  induction l with
  | nil => rfl
  | cons x xs ih => simp_all

theorem dropWhile_eq_self_of {α : Type} {p : α → Bool} {l : List α}
    (h : ∀ c ∈ l, p c = false) : l.dropWhile p = l := by
  cases l with
  | nil => rfl
  | cons x xs => simp [List.dropWhile_cons, h x (List.mem_cons_self x xs)]

theorem pyStrip_eq_self {l : List Char}
    (h : ∀ c ∈ l, isSpaceC c = false) : pyStrip l = l := by
  unfold pyStrip
  rw [dropWhile_eq_self_of h,
    dropWhile_eq_self_of (fun c hc => h c (List.mem_reverse.mp hc)),
    List.reverse_reverse]

theorem mem_dropWhile_of_mem {α : Type} {p : α → Bool} {c : α} {l : List α}
    (hm : c ∈ l) (hc : p c = false) : c ∈ l.dropWhile p := by
  induction l with
  | nil => cases hm
  | cons x xs ih =>
    rw [List.dropWhile_cons]
    by_cases hx : p x = true
    · rcases List.mem_cons.mp hm with rfl | hxs
      · rw [hx] at hc; cases hc
      · simpa [hx] using ih hxs
    · simp only [Bool.not_eq_true] at hx
      simpa [hx] using hm

theorem mem_pyStrip {c : Char} {l : List Char} (hm : c ∈ l)
    (hc : isSpaceC c = false) : c ∈ pyStrip l := by
  unfold pyStrip
  rw [List.mem_reverse]
  exact mem_dropWhile_of_mem
    (List.mem_reverse.mpr (mem_dropWhile_of_mem hm hc)) hc

theorem insertColon_of_nondigit {c : Char} {l : List Char} (hm : c ∈ l)
    (hc : isDigitC c = false) : insertColon l = l := by
  unfold insertColon
  rw [if_neg]
  rintro ⟨-, hall⟩
  rw [hall c hm] at hc
  cases hc

theorem splitAtChar_sound {sep : Char} {l a b : List Char}
    (h : splitAtChar sep l = some (a, b)) : l = a ++ sep :: b ∧ sep ∉ a := by
  induction l generalizing a b with
  | nil => simp [splitAtChar] at h
  | cons c r ih =>
    simp only [splitAtChar] at h
    split at h
    · rename_i hcs
      cases h
      subst hcs
      exact ⟨rfl, List.not_mem_nil _⟩
    · rename_i hcs
      split at h
      · cases h
      · rename_i p hp
        cases h
        obtain ⟨h1, h2⟩ := ih hp
        refine ⟨by rw [h1]; rfl, ?_⟩
        intro hmem
        rcases List.mem_cons.mp hmem with heq | hmem2
        · exact hcs heq.symm
        · exact h2 hmem2

theorem splitAtChar_complete {sep : Char} {a b : List Char} (ha : sep ∉ a) :
    splitAtChar sep (a ++ sep :: b) = some (a, b) := by
  induction a with
  | nil => simp [splitAtChar]
  | cons c r ih =>
    have hc : ¬ c = sep := fun h => ha (h ▸ List.mem_cons_self c r)
    rw [List.cons_append]
    simp only [splitAtChar, if_neg hc,
      ih (fun h => ha (List.mem_cons_of_mem _ h))]

theorem digitsVal_one (a : Char) : digitsVal [a] = dv a := by
  simp [digitsVal]

theorem digitsVal_two (a b : Char) : digitsVal [a, b] = 10 * dv a + dv b := by
  simp [digitsVal]

theorem twoDigitVal_sound {l : List Char} {v : Nat}
    (h : twoDigitVal l = some v) :
    1 ≤ l.length ∧ l.length ≤ 2 ∧ (∀ c ∈ l, isDigitC c = true) ∧
      digitsVal l = v := by
  match l with
  | [] => simp [twoDigitVal] at h
  | [a] =>
    simp only [twoDigitVal] at h
    split at h
    · cases h
      refine ⟨by simp, by simp, by simp_all, digitsVal_one a⟩
    · cases h
  | [a, b] =>
    simp only [twoDigitVal] at h
    split at h
    · cases h
      rename_i hab
      refine ⟨by simp, by simp, ?_, digitsVal_two a b⟩
      intro c hc
      rcases List.mem_cons.mp hc with rfl | hc2
      · exact hab.1
      · rcases List.mem_cons.mp hc2 with rfl | hc3
        · exact hab.2
        · cases hc3
    · cases h
  | a :: b :: c :: rest => simp [twoDigitVal] at h

theorem twoDigitVal_complete {l : List Char} (h1 : 1 ≤ l.length)
    (h2 : l.length ≤ 2) (hd : ∀ c ∈ l, isDigitC c = true) :
    twoDigitVal l = some (digitsVal l) := by
  match l with
  | [] => simp at h1
  | [a] =>
    rw [digitsVal_one]
    simp [twoDigitVal, hd a (List.mem_cons_self a [])]
  | [a, b] =>
    rw [digitsVal_two]
    have ha := hd a (List.mem_cons_self a [b])
    have hb := hd b (List.mem_cons_of_mem a (List.mem_cons_self b []))
    simp [twoDigitVal, ha, hb]
  | a :: b :: c :: rest => simp at h2

theorem strptimeHM_chars {s : List Char} {t : TimeOfDay}
    (h : strptimeHM s = some t) :
    ∀ c ∈ s, isDigitC c = true ∨ c = ':' := by
  unfold strptimeHM at h
  split at h
  · cases h
  · rename_i hd md hsp
    obtain ⟨hs, -⟩ := splitAtChar_sound hsp
    split at h
    · rename_i hv mv hhd hmd
      intro c hc
      subst hs
      rcases List.mem_append.mp hc with hc1 | hc2
      · exact Or.inl ((twoDigitVal_sound hhd).2.2.1 c hc1)
      · rcases List.mem_cons.mp hc2 with rfl | hc3
        · exact Or.inr rfl
        · exact Or.inl ((twoDigitVal_sound hmd).2.2.1 c hc3)
    · cases h

theorem strptimeHM_clean {hs ms : List Char}
    (hl1 : 1 ≤ hs.length) (hl2 : hs.length ≤ 2)
    (hd1 : ∀ c ∈ hs, isDigitC c = true) (hv1 : digitsVal hs ≤ 23)
    (ml1 : 1 ≤ ms.length) (ml2 : ms.length ≤ 2)
    (md1 : ∀ c ∈ ms, isDigitC c = true) (mv1 : digitsVal ms ≤ 59) :
    strptimeHM (hs ++ ':' :: ms) = some ⟨digitsVal hs, digitsVal ms⟩ := by
  have hcolon : ':' ∉ hs := fun hmem => absurd (hd1 ':' hmem) (by decide)
  simp [strptimeHM, splitAtChar_complete hcolon,
    twoDigitVal_complete hl1 hl2 hd1, twoDigitVal_complete ml1 ml2 md1,
    hv1, mv1]

theorem strptimeHM_isSome_iff {s : List Char} :
    (strptimeHM s).isSome = true ↔ isValidHM s := by
  constructor
  · intro h
    obtain ⟨t, ht⟩ := Option.isSome_iff_exists.mp h
    unfold strptimeHM at ht
    split at ht
    · cases ht
    · rename_i hd md hsp
      obtain ⟨hs, -⟩ := splitAtChar_sound hsp
      split at ht
      · rename_i hv mv hhd hmd
        split at ht
        · rename_i hrange
          obtain ⟨hh1, hh2, hh3, hh4⟩ := twoDigitVal_sound hhd
          obtain ⟨hm1, hm2, hm3, hm4⟩ := twoDigitVal_sound hmd
          exact ⟨hd, md, hs, hh1, hh2, hh3, hh4 ▸ hrange.1,
            hm1, hm2, hm3, hm4 ▸ hrange.2⟩
        · cases ht
      · cases ht
  · rintro ⟨hd, md, rfl, hh1, hh2, hh3, hh4, hm1, hm2, hm3, hm4⟩
    rw [strptimeHM_clean hh1 hh2 hh3 hh4 hm1 hm2 hm3 hm4]
    rfl

theorem pipeline_tail_clean {hs ms : List Char}
    (hd1 : ∀ c ∈ hs, isDigitC c = true)
    (md1 : ∀ c ∈ ms, isDigitC c = true) :
    insertColon (pyStrip ((hs ++ ':' :: ms).map sub2)) = hs ++ ':' :: ms := by
  have hall : ∀ c ∈ hs ++ ':' :: ms, isDigitC c = true ∨ c = ':' := by
    intro c hc
    rcases List.mem_append.mp hc with hc1 | hc2
    · exact Or.inl (hd1 c hc1)
    · rcases List.mem_cons.mp hc2 with rfl | hc3
      · exact Or.inr rfl
      · exact Or.inl (md1 c hc3)
  have h2 : (hs ++ ':' :: ms).map sub2 = hs ++ ':' :: ms := by
    refine map_id_of (fun c hc => ?_)
    rcases hall c hc with hdig | rfl
    · exact sub2_digit hdig
    · rfl
  have h3 : pyStrip (hs ++ ':' :: ms) = hs ++ ':' :: ms := by
    refine pyStrip_eq_self (fun c hc => ?_)
    rcases hall c hc with hdig | rfl
    · exact isSpaceC_of_digit hdig
    · rfl
  have hmem : ':' ∈ hs ++ ':' :: ms :=
    List.mem_append.mpr (Or.inr (List.mem_cons_self _ _))
  rw [h2, h3, insertColon_of_nondigit hmem (by decide)]

theorem parse_none_of_badChar {t : List Char} {c : Char} (hm : c ∈ t)
    (h1 : isDigitC c = false) (h2 : c ≠ ':') (h3 : isSpaceC c = false) :
    strptimeHM (insertColon (pyStrip t)) = none := by
  have hm1 : c ∈ pyStrip t := mem_pyStrip hm h3
  rw [insertColon_of_nondigit hm1 h1]
  cases hsp : strptimeHM (pyStrip t) with
  | none => rfl
  | some v =>
    rcases strptimeHM_chars hsp c hm1 with hdig | rfl
    · rw [h1] at hdig; cases hdig
    · exact absurd rfl h2

theorem fmtHM_canonical {h m : Nat} (hh : h ≤ 23) (hm : m ≤ 59) :
    fmtHM (h * 60 + m) = ⟨pad2 h ++ ':' :: pad2 m⟩ := by
  have e1 : (h * 60 + m) / 60 % 24 = h := by omega
  have e2 : (h * 60 + m) % 60 = m := by omega
  simp only [fmtHM, e1, e2]

theorem fmtHM_canonical_wrap {h m : Nat} (hh : h ≤ 23) (hm : m ≤ 59) :
    fmtHM (h * 60 + m + 1440) = ⟨pad2 h ++ ':' :: pad2 m⟩ := by
  have e1 : (h * 60 + m + 1440) / 60 % 24 = h := by omega
  have e2 : (h * 60 + m + 1440) % 60 = m := by omega
  simp only [fmtHM, e1, e2]

theorem calculate_duration_start_end {a b : Nat} (hab : a ≤ b) :
    ∃ s, calculate_duration a b = some s ∧
      s.start_time = fmtHM a ∧ s.end_time = fmtHM b := by
  by_cases h1 : (b - a) % 60 ≤ 19
  · exact ⟨_, calculate_duration_low hab h1, rfl, rfl⟩
  · by_cases h2 : (b - a) % 60 ≤ 49
    · exact ⟨_, calculate_duration_mid hab h1 h2, rfl, rfl⟩
    · exact ⟨_, calculate_duration_high hab h1 h2, rfl, rfl⟩

/-! ## Claim theorems -/

/-- C1: for every non-negative duration `d` in whole minutes with
`h = d / 60` and `m = d % 60`, the calculator rounds `m ∈ [0,19]` down to
`(h, 0)`, `m ∈ [20,49]` to `(h, 30)`, and `m ∈ [50,59]` up to `(h+1, 0)`;
in particular 1h19m gives 1h00m, 1h20m and 1h49m give 1h30m, and 1h50m
gives 2h00m. -/
theorem C1_rounding_policy (a d : Nat) :
    (∃ s, calculate_duration a (a + d) = some s ∧
      s.original_hours = d / 60 ∧ s.original_minutes = d % 60 ∧
      (d % 60 ≤ 19 → s.rounded_hours = d / 60 ∧ s.rounded_minutes = 0) ∧
      (20 ≤ d % 60 → d % 60 ≤ 49 →
        s.rounded_hours = d / 60 ∧ s.rounded_minutes = 30) ∧
      (50 ≤ d % 60 →
        s.rounded_hours = d / 60 + 1 ∧ s.rounded_minutes = 0)) ∧
    (calculate_duration 0 79).map
      (fun s => (s.rounded_hours, s.rounded_minutes)) = some (1, 0) ∧
    (calculate_duration 0 80).map
      (fun s => (s.rounded_hours, s.rounded_minutes)) = some (1, 30) ∧
    (calculate_duration 0 109).map
      (fun s => (s.rounded_hours, s.rounded_minutes)) = some (1, 30) ∧
    (calculate_duration 0 110).map
      (fun s => (s.rounded_hours, s.rounded_minutes)) = some (2, 0) := by
  refine ⟨?_, by decide, by decide, by decide, by decide⟩
  have hd : a + d - a = d := by omega
  by_cases h1 : d % 60 ≤ 19
  · refine ⟨_, calculate_duration_low (by omega) (by omega), ?_⟩
    simp [hd]
    omega
  · by_cases h2 : d % 60 ≤ 49
    · refine ⟨_, calculate_duration_mid (by omega) (by omega) (by omega), ?_⟩
      simp [hd]
      omega
    · refine ⟨_, calculate_duration_high (by omega) (by omega) (by omega), ?_⟩
      simp [hd]
      omega

theorem C1_rounding_policy_witness :
    ∃ s, calculate_duration 0 (0 + 79) = some s ∧
      s.rounded_hours = 1 ∧ s.rounded_minutes = 0 := by
  obtain ⟨⟨s, hs, _, _, hlow, _, _⟩, -⟩ := C1_rounding_policy 0 79
  exact ⟨s, hs, by simpa using (hlow (by decide)).1, (hlow (by decide)).2⟩

/-- C2: every record the calculator produces has `rounded_minutes` in
`{0, 30}` (so the rounded duration is a non-negative multiple of 30
minutes), `decimal_hours = rounded_hours + 0.5·(rounded_minutes = 30)`,
and `cost = rounded_hours·220 + (rounded_minutes = 30 ? 110 : 0)`. -/
theorem C2_record_invariant (a b : Nat) (s : Session)
    (h : calculate_duration a b = some s) :
    (s.rounded_minutes = 0 ∨ s.rounded_minutes = 30) ∧
    30 ∣ (s.rounded_hours * 60 + s.rounded_minutes) ∧
    s.decimal_hours =
      (s.rounded_hours : ℚ) +
        (if s.rounded_minutes = 30 then (1 : ℚ)/2 else 0) ∧
    s.cost = s.rounded_hours * 220 +
      (if s.rounded_minutes = 30 then 110 else 0) := by
  by_cases hab : b < a
  · simp [calculate_duration, hab] at h
  · replace hab := Nat.not_lt.mp hab
    by_cases h1 : (b - a) % 60 ≤ 19
    · rw [calculate_duration_low hab h1] at h
      cases h
      refine ⟨Or.inl rfl, by dsimp only; omega, by norm_num, by norm_num⟩
    · by_cases h2 : (b - a) % 60 ≤ 49
      · rw [calculate_duration_mid hab h1 h2] at h
        cases h
        refine ⟨Or.inr rfl, by dsimp only; omega, by norm_num, by norm_num⟩
      · rw [calculate_duration_high hab h1 h2] at h
        cases h
        refine ⟨Or.inl rfl, by dsimp only; omega, by norm_num, by norm_num⟩

theorem C2_record_invariant_witness :
    ∃ s, calculate_duration 0 80 = some s ∧
      ((s.rounded_minutes = 0 ∨ s.rounded_minutes = 30) ∧
      30 ∣ (s.rounded_hours * 60 + s.rounded_minutes) ∧
      s.decimal_hours =
        (s.rounded_hours : ℚ) +
          (if s.rounded_minutes = 30 then (1 : ℚ)/2 else 0) ∧
      s.cost = s.rounded_hours * 220 +
        (if s.rounded_minutes = 30 then 110 else 0)) := by
  refine ⟨_, calculate_duration_mid (a := 0) (b := 80)
    (by decide) (by decide) (by decide), ?_⟩
  exact C2_record_invariant 0 80 _
    (calculate_duration_mid (by decide) (by decide) (by decide))

/-- C6: the calculator fails exactly when the signed duration
`end - start` is strictly negative, and has no other failure path: for
`start ≤ end` it always produces a record.  In particular start 10:00,
end 09:00 with no wrap fails and creates no record. -/
theorem C6_negative_duration (a b : Nat) :
    (calculate_duration a b = none ↔ b < a) ∧
    (a ≤ b → (calculate_duration a b).isSome = true) ∧
    calculate_duration 600 540 = none := by
  refine ⟨?_, ?_, by decide⟩
  · by_cases hab : b < a <;> simp [calculate_duration, hab]
  · intro hle
    have hab : ¬ b < a := by omega
    simp [calculate_duration, hab]

theorem C6_negative_duration_witness :
    (calculate_duration 600 540 = none ↔ 540 < 600) ∧
    (600 ≤ 540 → (calculate_duration 600 540).isSome = true) ∧
    calculate_duration 600 540 = none :=
  C6_negative_duration 600 540

/-- C10: a session whose start and end coincide (no day wrap applies)
succeeds and yields original duration 0h 0m, rounded duration 0h 0m,
`decimal_hours = 0`, `cost = 0`, `formatted_cost = "$0.00"`. -/
theorem C10_zero_duration (t : TimeOfDay) :
    ∃ s, computeSession t t = some s ∧
      s.original_hours = 0 ∧ s.original_minutes = 0 ∧
      s.rounded_hours = 0 ∧ s.rounded_minutes = 0 ∧
      s.decimal_hours = 0 ∧ s.cost = 0 ∧ s.formatted_cost = "$0.00" := by
  have hw : computeSession t t = calculate_duration (toMinutes t) (toMinutes t) := by
    simp [computeSession]
  rw [hw, calculate_duration_low (Nat.le_refl _) (by simp)]
  refine ⟨_, rfl, by simp, by simp, by simp, rfl, by simp, by simp, ?_⟩
  simp only [Nat.sub_self]
  decide

theorem C10_zero_duration_witness :
    ∃ s, computeSession ⟨9, 30⟩ ⟨9, 30⟩ = some s ∧
      s.original_hours = 0 ∧ s.original_minutes = 0 ∧
      s.rounded_hours = 0 ∧ s.rounded_minutes = 0 ∧
      s.decimal_hours = 0 ∧ s.cost = 0 ∧ s.formatted_cost = "$0.00" :=
  C10_zero_duration ⟨9, 30⟩

/-- C7: with the caller-side day wrap, every session record carries the
canonical zero-padded `HH:MM` strings of both times of day (end hour
taken modulo 24), and the wrapped duration is billed: 23:00 to 01:00
gives original duration 2h00m, rounded 2h00m, cost 440, end time
recorded as `"01:00"`. -/
theorem C7_day_wrap_formatting (st en : TimeOfDay) (h1 : st.hour ≤ 23)
    (h2 : st.minute ≤ 59) (h3 : en.hour ≤ 23) (h4 : en.minute ≤ 59) :
    (∃ s, computeSession st en = some s ∧
      s.start_time = (⟨pad2 st.hour ++ ':' :: pad2 st.minute⟩ : String) ∧
      s.end_time = (⟨pad2 en.hour ++ ':' :: pad2 en.minute⟩ : String)) ∧
    (computeSession ⟨23, 0⟩ ⟨1, 0⟩).map
      (fun s => (s.original_hours, s.original_minutes, s.rounded_hours,
        s.rounded_minutes, s.cost, s.end_time))
      = some (2, 0, 2, 0, 440, "01:00") := by
  refine ⟨?_, by decide⟩
  have hst : toMinutes st = st.hour * 60 + st.minute := rfl
  have hen : toMinutes en = en.hour * 60 + en.minute := rfl
  by_cases hw : toMinutes en < toMinutes st
  · have hcs : computeSession st en =
        calculate_duration (toMinutes st) (toMinutes en + 1440) := by
      simp [computeSession, hw]
    obtain ⟨s, hs, hstart, hend⟩ :=
      calculate_duration_start_end
        (a := toMinutes st) (b := toMinutes en + 1440) (by omega)
    refine ⟨s, hcs ▸ hs, ?_, ?_⟩
    · rw [hstart, hst, fmtHM_canonical h1 h2]
    · rw [hend, hen, fmtHM_canonical_wrap h3 h4]
  · have hcs : computeSession st en =
        calculate_duration (toMinutes st) (toMinutes en) := by
      simp [computeSession, hw]
    obtain ⟨s, hs, hstart, hend⟩ :=
      calculate_duration_start_end
        (a := toMinutes st) (b := toMinutes en) (by omega)
    refine ⟨s, hcs ▸ hs, ?_, ?_⟩
    · rw [hstart, hst, fmtHM_canonical h1 h2]
    · rw [hend, hen, fmtHM_canonical h3 h4]

theorem C7_day_wrap_formatting_witness :
    ∃ s, computeSession ⟨23, 0⟩ ⟨1, 0⟩ = some s ∧
      s.start_time = (⟨pad2 23 ++ ':' :: pad2 0⟩ : String) ∧
      s.end_time = (⟨pad2 1 ++ ':' :: pad2 0⟩ : String) :=
  (C7_day_wrap_formatting ⟨23, 0⟩ ⟨1, 0⟩
    (by decide) (by decide) (by decide) (by decide)).1

/-- C3: all spellings of a valid time of day with `':'`, `'.'` or `';'`
as separator, and the 4-digit separator-free spelling, parse to the
identical canonical `TimeOfDay`: `"9.30"`, `"9;30"`, `"09:30"` all give
09:30 and `"2000"` gives 20:00. -/
theorem C3_spelling_equivalence :
    (∀ (h m : Nat) (hs ms : List Char) (sep : Char),
      h ≤ 23 → m ≤ 59 →
      1 ≤ hs.length → hs.length ≤ 2 →
      (∀ c ∈ hs, isDigitC c = true) → digitsVal hs = h →
      1 ≤ ms.length → ms.length ≤ 2 →
      (∀ c ∈ ms, isDigitC c = true) → digitsVal ms = m →
      (sep = ':' ∨ sep = '.' ∨ sep = ';') →
      parse_time_input (hs ++ sep :: ms) = some ⟨h, m⟩ ∧
      (hs.length = 2 → ms.length = 2 →
        parse_time_input (hs ++ ms) = some ⟨h, m⟩)) ∧
    parse_time_input ['9', '.', '3', '0'] = some ⟨9, 30⟩ ∧
    parse_time_input ['9', ';', '3', '0'] = some ⟨9, 30⟩ ∧
    parse_time_input ['0', '9', ':', '3', '0'] = some ⟨9, 30⟩ ∧
    parse_time_input ['2', '0', '0', '0'] = some ⟨20, 0⟩ := by
  refine ⟨?_, by decide, by decide, by decide, by decide⟩
  intro h m hs ms sep hh hm hl1 hl2 hd1 hv1 ml1 ml2 md1 mv1 hsep
  constructor
  · have h1 : (hs ++ sep :: ms).map sub1 = hs ++ ':' :: ms := by
      rw [List.map_append, map_id_of (fun c hc => sub1_digit (hd1 c hc)),
        List.map_cons, map_id_of (fun c hc => sub1_digit (md1 c hc))]
      rcases hsep with rfl | rfl | rfl <;> rfl
    rw [parse_time_input, normalizeChars, h1, pipeline_tail_clean hd1 md1,
      strptimeHM_clean hl1 hl2 hd1 (hv1 ▸ hh) ml1 ml2 md1 (mv1 ▸ hm),
      hv1, mv1]
  · intro he1 he2
    obtain ⟨a, b, rfl⟩ := List.length_eq_two.mp he1
    obtain ⟨x, y, rfl⟩ := List.length_eq_two.mp he2
    have hall : ∀ c ∈ [a, b] ++ [x, y], isDigitC c = true := by
      intro c hc
      rcases List.mem_append.mp hc with hc1 | hc2
      · exact hd1 c hc1
      · exact md1 c hc2
    have h1 : ([a, b] ++ [x, y]).map sub1 = [a, b] ++ [x, y] :=
      map_id_of (fun c hc => sub1_digit (hall c hc))
    have h2 : ([a, b] ++ [x, y]).map sub2 = [a, b] ++ [x, y] :=
      map_id_of (fun c hc => sub2_digit (hall c hc))
    have h3 : pyStrip ([a, b] ++ [x, y]) = [a, b] ++ [x, y] :=
      pyStrip_eq_self (fun c hc => isSpaceC_of_digit (hall c hc))
    have h4 : insertColon ([a, b] ++ [x, y]) = [a, b] ++ ':' :: [x, y] := by
      unfold insertColon
      rw [if_pos ⟨rfl, hall⟩]
      rfl
    rw [parse_time_input, normalizeChars, h1, h2, h3, h4,
      strptimeHM_clean hl1 hl2 hd1 (hv1 ▸ hh) ml1 ml2 md1 (mv1 ▸ hm),
      hv1, mv1]

theorem C3_spelling_equivalence_witness :
    parse_time_input (['0', '9'] ++ '.' :: ['3', '0']) = some ⟨9, 30⟩ ∧
    parse_time_input (['0', '9'] ++ ['3', '0']) = some ⟨9, 30⟩ := by
  have h := (C3_spelling_equivalence.1 9 30 ['0', '9'] ['3', '0'] '.'
    (by decide) (by decide) (by decide) (by decide) (by decide) (by decide)
    (by decide) (by decide) (by decide) (by decide) (Or.inr (Or.inl rfl)))
  exact ⟨h.1, h.2 rfl rfl⟩

/-- C4: the parser succeeds exactly when the normalized string matches
the hour:minute grammar with hour in [0,23] and minute in [0,59] (1- or
2-digit components), and otherwise returns no value: `"8:5"` parses,
while `"2400"`, hour 24, minute 60, and the empty string all fail. -/
theorem C4_success_iff_valid :
    (∀ s : List Char,
      (parse_time_input s).isSome = true ↔ isValidHM (normalizeChars s)) ∧
    parse_time_input ['8', ':', '5'] = some ⟨8, 5⟩ ∧
    parse_time_input ['2', '4', '0', '0'] = none ∧
    parse_time_input ['2', '4', ':', '0', '0'] = none ∧
    parse_time_input ['9', ':', '6', '0'] = none ∧
    parse_time_input [] = none := by
  exact ⟨fun s => strptimeHM_isSome_iff, by decide, by decide, by decide,
    by decide, by decide⟩

theorem C4_success_iff_valid_witness :
    (parse_time_input ['8', ':', '5']).isSome = true ↔
      isValidHM (normalizeChars ['8', ':', '5']) :=
  C4_success_iff_valid.1 ['8', ':', '5']

/-- C5: the comma-to-dot substitution (line 17 of the source) has no
observable effect: the parser with and without that step agree on every
input, and every input containing a comma is rejected by both. -/
theorem C5_comma_rule_dead :
    (∀ s : List Char, parse_time_input s = parse_time_input_noComma s) ∧
    (∀ s : List Char, ',' ∈ s →
      parse_time_input s = none ∧ parse_time_input_noComma s = none) := by
  have hbad : ∀ s : List Char, ',' ∈ s →
      parse_time_input s = none ∧ parse_time_input_noComma s = none := by
    intro s hmem
    have h1 : ',' ∈ s.map sub1 := by
      have : sub1 ',' = ',' := by decide
      exact this ▸ List.mem_map_of_mem sub1 hmem
    have h2 : '.' ∈ (s.map sub1).map sub2 := by
      have : sub2 ',' = '.' := by decide
      exact this ▸ List.mem_map_of_mem sub2 h1
    constructor
    · exact parse_none_of_badChar h2 (by decide) (by decide) (by decide)
    · exact parse_none_of_badChar h1 (by decide) (by decide) (by decide)
  refine ⟨?_, hbad⟩
  intro s
  by_cases hmem : ',' ∈ s
  · rw [(hbad s hmem).1, (hbad s hmem).2]
  · have h1 : (s.map sub1).map sub2 = s.map sub1 := by
      refine map_id_of (fun c hc => ?_)
      have hc2 : c ≠ ',' := by
        rintro rfl
        obtain ⟨x, hx, hx2⟩ := List.mem_map.mp hc
        exact hmem (sub1_eq_comma hx2 ▸ hx)
      simp [sub2, hc2]
    rw [parse_time_input, parse_time_input_noComma, normalizeChars, h1]

theorem C5_comma_rule_dead_witness :
    parse_time_input ['9', ',', '3', '0'] =
      parse_time_input_noComma ['9', ',', '3', '0'] ∧
    parse_time_input ['9', ',', '3', '0'] = none ∧
    parse_time_input_noComma ['9', ',', '3', '0'] = none :=
  ⟨C5_comma_rule_dead.1 ['9', ',', '3', '0'],
    C5_comma_rule_dead.2 ['9', ',', '3', '0'] (by decide)⟩

/-! ## Helper lemmas about decimal rendering and the CSV row model -/

theorem dChar_spec {n : Nat} (h : n < 10) :
    dv (dChar n) = n ∧ isDigitC (dChar n) = true := by
  interval_cases n <;> exact ⟨by decide, by decide⟩

theorem digitsVal_append_single (l : List Char) (c : Char) :
    digitsVal (l ++ [c]) = 10 * digitsVal l + dv c := by
  simp [digitsVal, List.foldl_append]

theorem natStrAux_spec :
    ∀ (f n : Nat), n < f →
      digitsVal (natStrAux f n) = n ∧ natStrAux f n ≠ [] ∧
      ∀ c ∈ natStrAux f n, isDigitC c = true := by
  intro f
  induction f with
  | zero => intro n h; omega
  | succ f ih =>
    intro n h
    rw [natStrAux]
    by_cases h10 : n < 10
    · rw [if_pos h10]
      obtain ⟨hd1, hd2⟩ := dChar_spec h10
      refine ⟨by rw [digitsVal_one, hd1], by simp, ?_⟩
      intro c hc
      rcases List.mem_cons.mp hc with rfl | hc2
      · exact hd2
      · cases hc2
    · rw [if_neg h10]
      obtain ⟨ih1, ih2, ih3⟩ := ih (n / 10) (by omega)
      obtain ⟨hd1, hd2⟩ := dChar_spec (Nat.mod_lt n (by omega))
      refine ⟨?_, by simp, ?_⟩
      · rw [digitsVal_append_single, ih1, hd1]
        omega
      · intro c hc
        rcases List.mem_append.mp hc with hc1 | hc2
        · exact ih3 c hc1
        · rcases List.mem_cons.mp hc2 with rfl | hc3
          · exact hd2
          · cases hc3

theorem natStr_spec (n : Nat) :
    digitsVal (natStr n) = n ∧ natStr n ≠ [] ∧
    ∀ c ∈ natStr n, isDigitC c = true :=
  natStrAux_spec (n + 1) n (Nat.lt_succ_self n)

theorem decValue_pyFloatStr (n : Nat) :
    decValue (pyFloatStr n) = some (n : ℚ) := by
  obtain ⟨hval, hne, hdig⟩ := natStr_spec n
  have hdot : '.' ∉ natStr n := fun hm => absurd (hdig '.' hm) (by decide)
  have h0 : digitsVal ['0'] = 0 := by decide
  show decValue ⟨natStr n ++ '.' :: ['0']⟩ = some (n : ℚ)
  unfold decValue
  rw [show (String.mk (natStr n ++ '.' :: ['0'])).data =
    natStr n ++ '.' :: ['0'] from rfl]
  rw [splitAtChar_complete hdot]
  dsimp only
  rw [if_pos ⟨hne, hdig, by decide⟩, hval, h0]
  norm_num

theorem load_save_rows (ss : List Session) :
    load_sessions (save_sessions_to_csv ss) =
      ss.map (fun s => (⟨s.start_time, s.end_time,
        ⟨natStr s.original_hours⟩, ⟨natStr s.original_minutes⟩,
        ⟨natStr s.rounded_hours⟩, ⟨natStr s.rounded_minutes⟩,
        pyHalfStr s.decimal_hours, s.formatted_cost,
        pyFloatStr s.cost⟩ : LoadedSession)) := by
  induction ss with
  | nil => rfl
  | cons s rest ih =>
    simp only [save_sessions_to_csv, load_sessions, List.map_cons,
      List.filterMap_cons, session_to_row, row_to_loaded, List.map_map]
    simp only [save_sessions_to_csv, load_sessions, List.map_map] at ih
    rw [ih]

theorem load_save_forall (ss : List Session) :
    List.Forall₂
      (fun (l : LoadedSession) (s : Session) =>
        l.start_time = s.start_time ∧ l.end_time = s.end_time ∧
        l.formatted_cost = s.formatted_cost ∧
        decValue l.cost = some (s.cost : ℚ))
      (load_sessions (save_sessions_to_csv ss)) ss := by
  rw [load_save_rows]
  induction ss with
  | nil => exact List.Forall₂.nil
  | cons s rest ih =>
    exact List.Forall₂.cons ⟨rfl, rfl, rfl, decValue_pyFloatStr s.cost⟩ ih

/-- C9: saving a session collection to the tabular rows and reloading
yields, in the same order, records with identical `start_time`,
`end_time` and `formatted_cost` strings and a value-equal `cost` (read
back as the string `str(float(cost))`, whose decimal value equals the
original; the cost bound marks where `float` is exact, and every cost
the program produces is far below it). -/
theorem C9_csv_round_trip (ss : List Session)
    (_hcost : ∀ s ∈ ss, s.cost < 2 ^ 53) :
    List.Forall₂
      (fun (l : LoadedSession) (s : Session) =>
        l.start_time = s.start_time ∧ l.end_time = s.end_time ∧
        l.formatted_cost = s.formatted_cost ∧
        decValue l.cost = some (s.cost : ℚ))
      (load_sessions (save_sessions_to_csv ss)) ss :=
  load_save_forall ss

theorem C9_csv_round_trip_witness :
    (∀ s ∈ [sessionExample], s.cost < 2 ^ 53) ∧
    List.Forall₂
      (fun (l : LoadedSession) (s : Session) =>
        l.start_time = s.start_time ∧ l.end_time = s.end_time ∧
        l.formatted_cost = s.formatted_cost ∧
        decValue l.cost = some (s.cost : ℚ))
      (load_sessions (save_sessions_to_csv [sessionExample]))
      [sessionExample] := by
  have hc : ∀ s ∈ [sessionExample], s.cost < 2 ^ 53 := by
    intro s hs
    rw [List.mem_singleton.mp hs]
    norm_num [sessionExample]
  exact ⟨hc, C9_csv_round_trip [sessionExample] hc⟩

/-! ## Helper lemmas about session removal -/

theorem insDesc_perm (i : Int) (l : List Int) :
    (insDesc i l).Perm (i :: l) := by
  induction l with
  | nil => exact List.Perm.refl _
  | cons j r ih =>
    rw [insDesc]
    by_cases h : j ≤ i
    · rw [if_pos h]
    · rw [if_neg h]
      exact (ih.cons j).trans (List.Perm.swap i j r)

theorem sortDesc_perm (l : List Int) : (sortDesc l).Perm l := by
  induction l with
  | nil => exact List.Perm.refl _
  | cons x r ih => exact (insDesc_perm x (sortDesc r)).trans (ih.cons x)

theorem insDesc_sorted {i : Int} {l : List Int}
    (h : l.Pairwise (fun a b => b ≤ a)) :
    (insDesc i l).Pairwise (fun a b => b ≤ a) := by
  induction l with
  | nil => simp [insDesc]
  | cons j r ih =>
    rw [insDesc]
    rcases List.pairwise_cons.mp h with ⟨hj, hr⟩
    by_cases hji : j ≤ i
    · rw [if_pos hji]
      refine List.pairwise_cons.mpr ⟨?_, h⟩
      intro b hb
      rcases List.mem_cons.mp hb with rfl | hbr
      · exact hji
      · exact le_trans (hj b hbr) hji
    · rw [if_neg hji]
      refine List.pairwise_cons.mpr ⟨?_, ih hr⟩
      intro b hb
      rcases List.mem_cons.mp ((insDesc_perm i r).mem_iff.mp hb) with rfl | hbr
      · omega
      · exact hj b hbr

theorem sortDesc_sorted (l : List Int) :
    (sortDesc l).Pairwise (fun a b => b ≤ a) := by
  induction l with
  | nil => exact List.Pairwise.nil
  | cons x r ih => exact insDesc_sorted ih

theorem withIdx_map_snd {α : Type} :
    ∀ (n : Nat) (l : List α), (withIdx n l).map Prod.snd = l
  | _, [] => rfl
  | n, x :: xs => by rw [withIdx, List.map_cons, withIdx_map_snd]

theorem mem_withIdx_bounds {α : Type} {p : Nat × α} {n : Nat} {l : List α}
    (h : p ∈ withIdx n l) : n ≤ p.1 ∧ p.1 < n + l.length := by
  induction l generalizing n with
  | nil => cases h
  | cons x xs ih =>
    rw [withIdx] at h
    rcases List.mem_cons.mp h with rfl | h2
    · simp only [List.length_cons]
      omega
    · have := ih h2
      simp only [List.length_cons]
      omega

theorem withIdx_filter_all {α : Type} {is : List Int} {n : Nat}
    {l : List α} (h : ∀ j ∈ is, j < (n : Int)) :
    (withIdx n l).filter (fun p => !decide ((p.1 : Int) ∈ is)) =
      withIdx n l := by
  rw [List.filter_eq_self]
  intro p hp
  have hge := (mem_withIdx_bounds hp).1
  have hnot : ¬ ((p.1 : Int) ∈ is) := by
    intro hmem
    have h2 := h _ hmem
    have h3 : (n : Int) ≤ (p.1 : Int) := by exact_mod_cast hge
    omega
  simp [hnot]

theorem withIdx_eraseIdx_filter {α : Type} :
    ∀ (ss : List α) (n k : Nat) (rest : List Int),
      (∀ j ∈ rest, j < ((n + k : Nat) : Int)) →
      ((withIdx n (ss.eraseIdx k)).filter
        (fun p => !decide ((p.1 : Int) ∈ rest))).map Prod.snd =
      ((withIdx n ss).filter
        (fun p => !decide ((p.1 : Int) ∈ (((n + k : Nat) : Int) :: rest)))).map
          Prod.snd := by
  intro ss
  induction ss with
  | nil => intro n k rest _; rfl
  | cons x xs ih =>
    intro n k rest h
    cases k with
    | zero =>
      have hmem : ((n : Int) ∈ (((n + 0 : Nat) : Int) :: rest)) := by simp
      have hall : ∀ j ∈ (((n + 0 : Nat) : Int) :: rest),
          j < ((n + 1 : Nat) : Int) := by
        intro j hj
        rcases List.mem_cons.mp hj with rfl | hjr
        · push_cast
          omega
        · have := h j hjr
          push_cast at this ⊢
          omega
      rw [List.eraseIdx_cons_zero,
        withIdx_filter_all (by simpa using h), withIdx_map_snd]
      rw [withIdx, List.filter_cons, if_neg (by simp [hmem]),
        withIdx_filter_all hall, withIdx_map_snd]
    | succ k =>
      have harith : ((n + 1) + k : Nat) = (n + (k + 1) : Nat) := by omega
      have h' : ∀ j ∈ rest, j < (((n + 1) + k : Nat) : Int) := by
        rw [harith]
        exact h
      have ihx := ih (n + 1) k rest h'
      rw [harith] at ihx
      have hiff : ((n : Int) ∈ (((n + (k + 1) : Nat) : Int) :: rest)) ↔
          ((n : Int) ∈ rest) := by
        rw [List.mem_cons]
        constructor
        · rintro (he | hm)
          · exfalso
            push_cast at he
            omega
          · exact hm
        · exact Or.inr
      rw [List.eraseIdx_cons_succ, withIdx, withIdx,
        List.filter_cons, List.filter_cons]
      by_cases hmem : (n : Int) ∈ rest
      · rw [if_neg (fun hcon => by
            rw [decide_eq_true hmem] at hcon; cases hcon),
          if_neg (fun hcon => by
            rw [decide_eq_true (hiff.mpr hmem)] at hcon; cases hcon)]
        exact ihx
      · rw [if_pos (by rw [decide_eq_false hmem]; rfl),
          if_pos (by rw [decide_eq_false (fun hx => hmem (hiff.mp hx))]; rfl),
          List.map_cons, List.map_cons, ihx]

theorem delIndices_eq_survivors {α : Type} :
    ∀ (idxs : List Int), idxs.Pairwise (fun a b => b < a) →
      ∀ (ss : List α), delIndices ss idxs = survivors ss idxs := by
  intro idxs
  induction idxs with
  | nil =>
    intro _ ss
    unfold delIndices survivors
    rw [List.foldl_nil, withIdx_filter_all (by simp), withIdx_map_snd]
  | cons i rest ih =>
    intro hp ss
    rcases List.pairwise_cons.mp hp with ⟨hfst, hrest⟩
    show delIndices
      (if 0 ≤ i ∧ i < (ss.length : Int) then ss.eraseIdx i.toNat else ss)
      rest = _
    by_cases hg : 0 ≤ i ∧ i < (ss.length : Int)
    · rw [if_pos hg, ih hrest]
      unfold survivors
      have hcast : ((0 + i.toNat : Nat) : Int) = i := by
        rw [Nat.zero_add]
        exact Int.toNat_of_nonneg hg.1
      have hrest' : ∀ j ∈ rest, j < ((0 + i.toNat : Nat) : Int) := by
        rw [hcast]
        exact hfst
      have hkey := withIdx_eraseIdx_filter ss 0 i.toNat rest hrest'
      rw [hcast] at hkey
      exact hkey
    · rw [if_neg hg, ih hrest]
      unfold survivors
      have hpred : ∀ p ∈ withIdx 0 ss,
          (!decide ((p.1 : Int) ∈ rest)) =
          (!decide ((p.1 : Int) ∈ (i :: rest))) := by
        intro p hp2
        have hb := mem_withIdx_bounds hp2
        have hne : ¬ ((p.1 : Int) = i) := by omega
        simp [List.mem_cons, hne]
      rw [List.filter_congr hpred]

theorem survivors_congr {α : Type} {is1 is2 : List Int}
    (h : ∀ j : Int, j ∈ is1 ↔ j ∈ is2) (ss : List α) :
    survivors ss is1 = survivors ss is2 := by
  unfold survivors
  have hfun : ∀ p : Nat × α,
      (!decide ((p.1 : Int) ∈ is1)) = (!decide ((p.1 : Int) ∈ is2)) := by
    intro p
    simp [h]
  rw [List.filter_congr (fun p _ => hfun p)]

/-- C8: for every collection and every set of (distinct) 1-based indices,
the remove operation — which deletes in descending index order with
bounds checks — leaves exactly the records whose index is not listed,
regardless of the order the indices were given; removing "3,1" or "1,3"
from a 3-record collection leaves exactly record 2. -/
theorem C8_remove_by_indices :
    (∀ (α : Type) (ss : List α) (oneBased : List Int), oneBased.Nodup →
      removeSessions ss oneBased =
        survivors ss (oneBased.map (fun x => x - 1))) ∧
    removeSessions [10, 20, 30] [3, 1] = [20] ∧
    removeSessions [10, 20, 30] [1, 3] = [20] ∧
    survivors [10, 20, 30] ([3, 1].map (fun x => x - 1)) = [20] := by
  refine ⟨?_, by decide, by decide, by decide⟩
  intro α ss oneBased hnd
  unfold removeSessions
  have hinj : Function.Injective (fun x : Int => x - 1) := by
    intro a b hab
    simpa using hab
  have hnd2 : (oneBased.map (fun x => x - 1)).Nodup := hnd.map hinj
  have hnds : (sortDesc (oneBased.map (fun x => x - 1))).Nodup :=
    ((sortDesc_perm _).nodup_iff).mpr hnd2
  have hsorted := sortDesc_sorted (oneBased.map (fun x => x - 1))
  have hstrict : (sortDesc (oneBased.map (fun x => x - 1))).Pairwise
      (fun a b => b < a) :=
    (hsorted.and hnds).imp (fun hab => lt_of_le_of_ne hab.1 (Ne.symm hab.2))
  rw [delIndices_eq_survivors _ hstrict]
  exact survivors_congr (fun j => (sortDesc_perm _).mem_iff) ss

theorem C8_remove_by_indices_witness :
    ([3, 1] : List Int).Nodup ∧
    removeSessions [10, 20, 30] [3, 1] =
      survivors [10, 20, 30] ([3, 1].map (fun x => x - 1)) :=
  ⟨by decide, C8_remove_by_indices.1 Nat [10, 20, 30] [3, 1] (by decide)⟩

end TimeCalc
